import Mathlib

/-!
Verification of the sequential Hopfield automaton network.

The definitions below are a shallow embedding of the Python sources:
`src/network.py` (the generic layer and its apical update),
`src/hopfieldNetwork.py` (the attractor layer: Hebbian weights, synchronous
relaxation, nearest-pattern recall, pattern-store mutation),
`src/utils.py` (minterm weight and threshold synthesis) and
`sequential.py` (the three-layer orchestrator and its per-step processing).
Numpy float arrays are modelled with exact rationals; a length-N numpy vector
is a function `Fin N → ℚ`; raising an exception is modelled with an error flag
or an `Except`/`Option` result.
-/

namespace HopSeq

/-- The numpy `sign` function on one component: positive to 1, negative to -1,
zero to 0.  This is the activation used verbatim by `compute_apical_state`
(src/network.py line 78). -/
def npSign (x : ℚ) : ℚ :=
  if 0 < x then 1 else if x < 0 then -1 else 0

/-- A vector is bipolar when every component is exactly +1 or -1. -/
def Bipolar {k : ℕ} (v : Fin k → ℚ) : Prop :=
  ∀ i, v i = 1 ∨ v i = -1

instance bipolarDecidable {k : ℕ} (v : Fin k → ℚ) : Decidable (Bipolar v) :=
  inferInstanceAs (Decidable (∀ i, v i = 1 ∨ v i = -1))

/-- One synchronous apical update of a layer of size S
(`Network.compute_apical_state`, src/network.py lines 66-80): the weighted
input starts at zero, the upper term is added when an upper network is
linked, the lower term when a lower network is linked, and the new state is
`np.sign(weighted_input - thresholds)` componentwise. -/
def computeApicalState {S L U : ℕ} (lowerW : Fin S → Fin L → ℚ)
    (upperW : Fin S → Fin U → ℚ) (thresholds : Fin S → ℚ)
    (lowerState : Option (Fin L → ℚ)) (upperState : Option (Fin U → ℚ)) :
    Fin S → ℚ :=
  fun i =>
    let wUp : ℚ :=
      match upperState with
      | some u => ∑ j, upperW i j * u j
      | none => 0
    let wLow : ℚ :=
      match lowerState with
      | some l => ∑ j, lowerW i j * l j
      | none => 0
    npSign (wUp + wLow - thresholds i)

/-- One minterm record (`create_minterm_data`, src/utils.py lines 20-38):
the relation-signal vector, the source-state vector and the target-state
vector of one transition. -/
structure Minterm (n N : ℕ) where
  relation_signal : Fin n → ℚ
  input_pattern : Fin N → ℚ
  output_state : Fin N → ℚ

/-- Minterm-layer lower weights (`_generate_minterm_weights_and_thresholds`,
src/utils.py line 72): row i is minterm i's relation-signal vector. -/
def mintermLowerWeights {n N M : ℕ} (mts : Fin M → Minterm n N) :
    Fin M → Fin n → ℚ :=
  fun i j => (mts i).relation_signal j

/-- Minterm-layer upper weights (src/utils.py line 75): row i is minterm i's
source-state vector. -/
def mintermUpperWeights {n N M : ℕ} (mts : Fin M → Minterm n N) :
    Fin M → Fin N → ℚ :=
  fun i j => (mts i).input_pattern j

/-- Minterm-layer thresholds (src/utils.py lines 77-80):
`‖input_pattern‖² + ‖relation_signal‖² - 0.5`, with the squared euclidean
norm written as the exact sum of squares. -/
def mintermThresholds {n N M : ℕ} (mts : Fin M → Minterm n N) : Fin M → ℚ :=
  fun i =>
    (∑ j, ((mts i).input_pattern j) ^ 2) +
      (∑ j, ((mts i).relation_signal j) ^ 2) - 1 / 2

/-- Per-minterm offset vector accumulated by `_calculate_state_thresholds`
(src/utils.py lines 93-97): for minterm i, the negated sum of the
target-state vectors of all other minterms. -/
def mintermOffset {n N M : ℕ} (mts : Fin M → Minterm n N) (i : Fin M) :
    Fin N → ℚ :=
  fun k => ∑ j ∈ Finset.univ.erase i, -((mts j).output_state k)

/-- Attractor-layer thresholds (`_calculate_state_thresholds`, src/utils.py
lines 84-103): the per-minterm offsets are accumulated and divided by the
number of minterms. -/
def stateThresholds {n N M : ℕ} (mts : Fin M → Minterm n N) : Fin N → ℚ :=
  fun k => (∑ i, mintermOffset mts i k) / (M : ℚ)

/-- One synchronous step of the Hopfield relaxation
(src/hopfieldNetwork.py lines 108-117): `new_state = np.sign(W·current)`
with every exactly-zero weighted input then overwritten with 1. -/
def hopfieldStep {N : ℕ} (W : Fin N → Fin N → ℚ) (s : Fin N → ℚ) :
    Fin N → ℚ :=
  fun i =>
    let wi := ∑ j, W i j * s j
    if wi = 0 then 1 else npSign wi

/-- The relaxation loop of `compute_hopfield_state`
(src/hopfieldNetwork.py lines 107-131), with the remaining iteration budget
explicit: each iteration computes the synchronous step and returns it with
flag `true` on convergence; an exhausted budget returns the last computed
state with flag `false` (the non-fatal "did not converge" warning path). -/
def relaxLoop {N : ℕ} (W : Fin N → Fin N → ℚ) :
    ℕ → (Fin N → ℚ) → (Fin N → ℚ) × Bool
  | 0, current => (current, false)
  | fuel + 1, current =>
    let new := hopfieldStep W current
    if new = current then (new, true) else relaxLoop W fuel new

/-- The iteration cap `max_iterations = 1000` of src/hopfieldNetwork.py. -/
def maxIterations : ℕ := 1000

/-- The full relaxation from a starting state (src/hopfieldNetwork.py
lines 104-131): the settled (or capped) state plus a convergence flag. -/
def computeHopfieldState {N : ℕ} (W : Fin N → Fin N → ℚ) (s : Fin N → ℚ) :
    (Fin N → ℚ) × Bool :=
  relaxLoop W maxIterations s

/-- Similarity of `find_closest_state` (src/hopfieldNetwork.py line 143):
the dot product divided by the layer dimension N. -/
def similarity {N : ℕ} (target v : Fin N → ℚ) : ℚ :=
  (∑ j, target j * v j) / (N : ℚ)

/-- The scan of `find_closest_state` over the insertion-ordered pattern
store (src/hopfieldNetwork.py lines 141-146), carried accumulator
`(best_match, best_similarity)`; the accumulator is replaced only on a
strictly greater similarity. -/
def closestLoop {N : ℕ} (target : Fin N → ℚ) :
    List (String × (Fin N → ℚ)) → String × ℚ → String × ℚ
  | [], acc => acc
  | p :: rest, acc =>
    closestLoop target rest
      (if acc.2 < similarity target p.2 then (p.1, similarity target p.2)
       else acc)

/-- `find_closest_state` (src/hopfieldNetwork.py lines 133-148): `none`
models the ValueError on an empty store; otherwise the scan starts from
`("Unknown pattern", -1)` and the best label is returned only when the best
similarity reaches the threshold. -/
def findClosestState {N : ℕ} (store : List (String × (Fin N → ℚ)))
    (target : Fin N → ℚ) (threshold : ℚ) : Option String :=
  if store.isEmpty then none
  else
    some
      (if threshold ≤ (closestLoop target store ("Unknown pattern", -1)).2
       then (closestLoop target store ("Unknown pattern", -1)).1
       else "Unknown pattern")

/-- The maximum similarity the scan can see: the fold of `max` over all
stored patterns' similarities, from the initial best of -1. -/
def bestSimilarity {N : ℕ} (target : Fin N → ℚ)
    (store : List (String × (Fin N → ℚ))) : ℚ :=
  (store.map fun p => similarity target p.2).foldl max (-1)

/-- The Hebbian sum of `compute_hopfield_weights`
(src/hopfieldNetwork.py lines 85-90) before the diagonal is zeroed: the sum
of the outer products of the stored patterns, divided by their count. -/
def hebbRaw {N : ℕ} (ps : List (Fin N → ℚ)) : Fin N → Fin N → ℚ :=
  fun i j => (ps.map fun p => p i * p j).sum / (ps.length : ℚ)

/-- The Hebbian weight matrix with the diagonal forced to zero
(src/hopfieldNetwork.py line 91). -/
def hebbWeights {N : ℕ} (ps : List (Fin N → ℚ)) : Fin N → Fin N → ℚ :=
  fun i j => if i = j then 0 else hebbRaw ps i j

/-- `compute_hopfield_weights` as a state transition on `self.weights`
(src/hopfieldNetwork.py lines 73-91): the matrix is zeroed first, and with
no stored pattern the ValueError is raised while the zeroed matrix stays
observable, modelled by the flag `false`. -/
def computeHopfieldWeightsSt {N : ℕ} (ps : List (Fin N → ℚ)) :
    (Fin N → Fin N → ℚ) × Bool :=
  if ps.isEmpty then (fun _ _ => 0, false) else (hebbWeights ps, true)

/-- The attractor layer's pattern store: an insertion-ordered association
list modelling the Python dict `self.states`. -/
abbrev Store (N : ℕ) : Type :=
  List (String × (Fin N → ℚ))

/-- Python dict assignment `self.states[state_id] = state.copy()`
(src/hopfieldNetwork.py line 52): replace in place when the key exists,
append otherwise. -/
def storeSet {N : ℕ} (store : Store N) (lbl : String) (v : Fin N → ℚ) :
    Store N :=
  if store.any fun p => p.1 == lbl then
    store.map fun p => if p.1 == lbl then (lbl, v) else p
  else store ++ [(lbl, v)]

/-- `add_single_state` (src/hopfieldNetwork.py lines 47-53): store the
vector under the id, then recompute the Hebbian weights.  The result is the
new store, the new weight matrix and the error-free flag. -/
def addSingleStateSt {N : ℕ} (store : Store N) (lbl : String)
    (v : Fin N → ℚ) : Store N × (Fin N → Fin N → ℚ) × Bool :=
  (storeSet store lbl v,
    (computeHopfieldWeightsSt ((storeSet store lbl v).map Prod.snd)).1,
    (computeHopfieldWeightsSt ((storeSet store lbl v).map Prod.snd)).2)

/-- `remove_state` (src/hopfieldNetwork.py lines 65-71): a missing id is a
KeyError leaving store and weights untouched; otherwise the entry is
deleted and the weights recomputed (which itself errors, after zeroing the
matrix, when the last pattern was removed). -/
def removeStateSt {N : ℕ} (store : Store N) (weights : Fin N → Fin N → ℚ)
    (lbl : String) : Store N × (Fin N → Fin N → ℚ) × Bool :=
  if store.any fun p => p.1 == lbl then
    ((store.filter fun p => p.1 != lbl),
      (computeHopfieldWeightsSt
        (((store.filter fun p => p.1 != lbl)).map Prod.snd)).1,
      (computeHopfieldWeightsSt
        (((store.filter fun p => p.1 != lbl)).map Prod.snd)).2)
  else (store, weights, false)

/-- A mutation of the pattern store: `add_single_state` or `remove_state`. -/
inductive StoreMutation (N : ℕ) where
  | add : String → (Fin N → ℚ) → StoreMutation N
  | remove : String → StoreMutation N

/-- Apply one store mutation to the attractor layer's (store, weights)
state. -/
def applyMutation {N : ℕ} (store : Store N) (weights : Fin N → Fin N → ℚ) :
    StoreMutation N → Store N × (Fin N → Fin N → ℚ) × Bool
  | .add lbl v => addSingleStateSt store lbl v
  | .remove lbl => removeStateSt store weights lbl

/-- A numpy matrix as `_validate_weights` sees it: a shape and a dtype
flag (`np.issubdtype(dtype, np.floating)`). -/
structure NpMatrix where
  rows : ℕ
  cols : ℕ
  entries : Fin rows → Fin cols → ℚ
  isFloat : Bool

/-- A numpy vector as `_validate_weights` sees it. -/
structure NpVector where
  size : ℕ
  entries : Fin size → ℚ
  isFloat : Bool

/-- The shape test of src/network.py lines 48-52: a matrix is checked
against `(self.N, neighbor.N)` only when the corresponding neighbor is
linked; with no neighbor the matrix passes unconditionally. -/
def shapeMismatch (n : ℕ) (link : Option ℕ) (m : NpMatrix) : Bool :=
  match link with
  | some L => !(m.rows == n && m.cols == L)
  | none => false

/-- `Network._validate_weights` (src/network.py lines 44-63), with the
checks in source order: lower shape, upper shape, thresholds shape, then
the three dtype checks. -/
def validateWeights (selfN : ℕ) (lowerN upperN : Option ℕ)
    (lower upper : NpMatrix) (thresholds : NpVector) : Except String Unit :=
  if shapeMismatch selfN lowerN lower then
    Except.error "Lower weights shape mismatch"
  else if shapeMismatch selfN upperN upper then
    Except.error "Upper weights shape mismatch"
  else if thresholds.size != selfN then
    Except.error "Thresholds shape mismatch"
  else if !lower.isFloat then
    Except.error "Lower weights must be float type"
  else if !upper.isFloat then
    Except.error "Upper weights must be float type"
  else if !thresholds.isFloat then
    Except.error "Thresholds must be float type"
  else Except.ok ()

/-- The state of a `SequentialNetwork` (sequential.py): the relation-code
table, the three layers' current states, the installed weight matrices and
thresholds, the attractor layer's Hebbian matrix and its pattern store. -/
structure SeqNet (n M N : ℕ) where
  inputs : List (String × (Fin n → ℚ))
  inputState : Fin n → ℚ
  mintermState : Fin M → ℚ
  stateState : Fin N → ℚ
  mintermLower : Fin M → Fin n → ℚ
  mintermUpper : Fin M → Fin N → ℚ
  mintermThr : Fin M → ℚ
  stateLower : Fin N → Fin M → ℚ
  stateUpper : Fin N → Fin N → ℚ
  stateThr : Fin N → ℚ
  hopWeights : Fin N → Fin N → ℚ
  stateStore : List (String × (Fin N → ℚ))

/-- `SequentialNetwork.process_input` (sequential.py lines 71-89) on the
entered string as `_valid_input` sees it after `.upper()` (sequential.py
line 66): the label is looked up in the relation table; an unknown relation
raises inside `_valid_input` before any layer is touched, and the caught
exception yields `"error_state"` with every layer state unchanged.
A known relation sets the input layer, updates the minterm layer apically
from (input, attractor), updates the attractor layer apically from the
minterm layer (its upper side is unlinked), relaxes the Hopfield layer and
reports the closest stored pattern (a failed recall is likewise caught as
`"error_state"`). -/
def processInput {n M N : ℕ} (net : SeqNet n M N) (userInput : String) :
    String × SeqNet n M N :=
  match net.inputs.lookup userInput with
  | none => ("error_state", net)
  | some sig =>
    let net1 : SeqNet n M N := { net with inputState := sig }
    let net2 : SeqNet n M N :=
      { net1 with
        mintermState :=
          computeApicalState net1.mintermLower net1.mintermUpper
            net1.mintermThr (some net1.inputState) (some net1.stateState) }
    let net3 : SeqNet n M N :=
      { net2 with
        stateState :=
          computeApicalState net2.stateLower net2.stateUpper net2.stateThr
            (some net2.mintermState) none }
    let net4 : SeqNet n M N :=
      { net3 with
        stateState := (computeHopfieldState net3.hopWeights net3.stateState).1 }
    match findClosestState net4.stateStore net4.stateState (3 / 4) with
    | none => ("error_state", net4)
    | some lbl => (lbl, net4)

/-- Concrete one-minterm system used to witness the minterm firing rule. -/
def mintermW : Fin 1 → Minterm 1 1 :=
  fun _ => ⟨fun _ => 1, fun _ => 1, fun _ => 1⟩

/-- Concrete input-layer state used to witness the minterm firing rule. -/
def inputVecW : Fin 1 → ℚ := fun _ => 1

/-- Concrete attractor-layer state used to witness the minterm firing rule. -/
def attrVecW : Fin 1 → ℚ := fun _ => -1

/-- Concrete two-minterm system used to witness the threshold formula. -/
def mintermPairW : Fin 2 → Minterm 1 1 :=
  fun i => ⟨fun _ => 1, fun _ => 1, fun _ => if i = 0 then 2 else 4⟩

/-- Concrete sequential network used to witness the unknown-relation step. -/
def netW : SeqNet 1 1 1 :=
  ⟨[("A", fun _ => 1)], fun _ => 1, fun _ => 1, fun _ => 1, fun _ _ => 1,
    fun _ _ => 1, fun _ => 1, fun _ _ => 1, fun _ _ => 0, fun _ => 0,
    fun _ _ => 0, [("A", fun _ => 1)]⟩

/-- Concrete store whose best similarity stays below the 0.75 threshold. -/
def storeUnrecW : Store 1 := [("A", fun _ => 1)]

/-- Concrete query vector for the unrecognized-recall witness. -/
def targetUnrecW : Fin 1 → ℚ := fun _ => 0

/-- Concrete pattern used to witness the Hebbian invariants after an add. -/
def vecOneW : Fin 1 → ℚ := fun _ => 1

/-- Concrete two-pattern store used to witness label replacement. -/
def storeTwoW : Store 1 := [("A", fun _ => 1), ("B", fun _ => -1)]

/-- Concrete replacement vector used to witness label replacement. -/
def vecFiveW : Fin 1 → ℚ := fun _ => 5

/-- Concrete nonzero non-matching lower matrix accepted while unlinked. -/
def cexLower : NpMatrix := ⟨2, 3, fun _ _ => 7, true⟩

/-- Concrete float upper matrix for the validation counterexample. -/
def cexUpper : NpMatrix := ⟨1, 1, fun _ _ => 0, true⟩

/-- Concrete float threshold vector for the validation counterexample. -/
def cexThr : NpVector := ⟨1, fun _ => 0, true⟩

end HopSeq

namespace HopSeq

lemma npSign_pos {x : ℚ} (h : 0 < x) : npSign x = 1 := by
  unfold npSign
  rw [if_pos h]

lemma npSign_neg {x : ℚ} (h : x < 0) : npSign x = -1 := by
  unfold npSign
  rw [if_neg (by linarith), if_pos h]

lemma bipolar_mul_le {x y : ℚ} (hx : x = 1 ∨ x = -1) (hy : y = 1 ∨ y = -1) :
    x * y ≤ 1 := by
  rcases hx with h | h <;> rcases hy with h2 | h2 <;> rw [h, h2] <;> norm_num

lemma bipolar_mul_of_ne {x y : ℚ} (hx : x = 1 ∨ x = -1) (hy : y = 1 ∨ y = -1)
    (hne : x ≠ y) : x * y = -1 := by
  rcases hx with h | h <;> rcases hy with h2 | h2 <;>
    first
      | (exact absurd (h.trans h2.symm) hne)
      | (rw [h, h2]; norm_num)

lemma bipolar_dot_self {k : ℕ} (v : Fin k → ℚ) (hv : Bipolar v) :
    (∑ j, v j * v j) = (k : ℚ) := by
  have h1 : ∀ j ∈ Finset.univ, v j * v j = (1 : ℚ) := by
    intro j _
    rcases hv j with h | h <;> rw [h] <;> norm_num
  rw [Finset.sum_congr rfl h1, Finset.sum_const, Finset.card_univ,
    Fintype.card_fin, nsmul_eq_mul, mul_one]

lemma bipolar_sq_sum {k : ℕ} (v : Fin k → ℚ) (hv : Bipolar v) :
    (∑ j, (v j) ^ 2) = (k : ℚ) := by
  have h1 : ∀ j ∈ Finset.univ, (v j) ^ 2 = v j * v j := by
    intro j _
    ring
  rw [Finset.sum_congr rfl h1, bipolar_dot_self v hv]

lemma bipolar_dot_le {k : ℕ} (u v : Fin k → ℚ) (hu : Bipolar u)
    (hv : Bipolar v) : (∑ j, u j * v j) ≤ (k : ℚ) := by
  calc (∑ j, u j * v j) ≤ ∑ _j : Fin k, (1 : ℚ) :=
        Finset.sum_le_sum fun j _ => bipolar_mul_le (hu j) (hv j)
    _ = (k : ℚ) := by
        rw [Finset.sum_const, Finset.card_univ, Fintype.card_fin,
          nsmul_eq_mul, mul_one]

lemma bipolar_dot_eq {k : ℕ} (u v : Fin k → ℚ) (hv : Bipolar v)
    (heq : u = v) : (∑ j, u j * v j) = (k : ℚ) := by
  subst heq
  exact bipolar_dot_self u hv

lemma bipolar_dot_of_ne {k : ℕ} (u v : Fin k → ℚ) (hu : Bipolar u)
    (hv : Bipolar v) (hne : u ≠ v) : (∑ j, u j * v j) ≤ (k : ℚ) - 2 := by
  obtain ⟨j0, hj0⟩ := Function.ne_iff.mp hne
  have hterm : u j0 * v j0 = -1 := bipolar_mul_of_ne (hu j0) (hv j0) hj0
  have hsplit : (∑ j ∈ Finset.univ.erase j0, u j * v j) + u j0 * v j0 =
      ∑ j, u j * v j :=
    Finset.sum_erase_add _ _ (Finset.mem_univ j0)
  have hcard : ((Finset.univ.erase j0).card : ℚ) = (k : ℚ) - 1 := by
    rw [Finset.card_erase_of_mem (Finset.mem_univ j0), Finset.card_univ,
      Fintype.card_fin, Nat.cast_sub j0.pos, Nat.cast_one]
  have hbound : (∑ j ∈ Finset.univ.erase j0, u j * v j) ≤ (k : ℚ) - 1 := by
    calc (∑ j ∈ Finset.univ.erase j0, u j * v j)
        ≤ ∑ _j ∈ Finset.univ.erase j0, (1 : ℚ) :=
          Finset.sum_le_sum fun j _ => bipolar_mul_le (hu j) (hv j)
      _ = ((Finset.univ.erase j0).card : ℚ) := by
          rw [Finset.sum_const, nsmul_eq_mul, mul_one]
      _ = (k : ℚ) - 1 := hcard
  linarith

/-- C1: a minterm unit synthesized from bipolar minterms fires (+1) under the
apical update exactly when the input layer's state equals its relation vector
and the attractor layer's state equals its source-state vector, and outputs
-1 for any partial mismatch. -/
theorem minterm_apical_fires_iff {n N M : ℕ} (mts : Fin M → Minterm n N)
    (hrel : ∀ i, Bipolar (mts i).relation_signal)
    (hsrc : ∀ i, Bipolar (mts i).input_pattern)
    (x : Fin n → ℚ) (a : Fin N → ℚ) (hx : Bipolar x) (ha : Bipolar a)
    (i : Fin M) :
    computeApicalState (mintermLowerWeights mts) (mintermUpperWeights mts)
        (mintermThresholds mts) (some x) (some a) i =
      if x = (mts i).relation_signal ∧ a = (mts i).input_pattern then 1
      else -1 := by
  have happ : computeApicalState (mintermLowerWeights mts)
      (mintermUpperWeights mts) (mintermThresholds mts) (some x) (some a) i =
      npSign ((∑ j, (mts i).input_pattern j * a j) +
        (∑ j, (mts i).relation_signal j * x j) -
        ((∑ j, ((mts i).input_pattern j) ^ 2) +
          (∑ j, ((mts i).relation_signal j) ^ 2) - 1 / 2)) := rfl
  rw [happ, bipolar_sq_sum _ (hsrc i), bipolar_sq_sum _ (hrel i)]
  by_cases hxr : x = (mts i).relation_signal
  · by_cases has : a = (mts i).input_pattern
    · rw [if_pos ⟨hxr, has⟩]
      rw [bipolar_dot_eq _ _ ha has.symm, bipolar_dot_eq _ _ hx hxr.symm]
      apply npSign_pos
      linarith
    · rw [if_neg fun hand => has hand.2]
      have h1 : (∑ j, (mts i).input_pattern j * a j) ≤ (N : ℚ) - 2 :=
        bipolar_dot_of_ne _ _ (hsrc i) ha fun h => has (h.symm)
      have h2 : (∑ j, (mts i).relation_signal j * x j) = (n : ℚ) :=
        bipolar_dot_eq _ _ hx hxr.symm
      apply npSign_neg
      linarith
  · rw [if_neg fun hand => hxr hand.1]
    have h1 : (∑ j, (mts i).input_pattern j * a j) ≤ (N : ℚ) :=
      bipolar_dot_le _ _ (hsrc i) ha
    have h2 : (∑ j, (mts i).relation_signal j * x j) ≤ (n : ℚ) - 2 :=
      bipolar_dot_of_ne _ _ (hrel i) hx fun h => hxr (h.symm)
    apply npSign_neg
    linarith

/-- C1 witness: the firing rule evaluated on a concrete one-minterm system
whose attractor state mismatches the source pattern. -/
theorem minterm_apical_fires_iff_witness :
    computeApicalState (mintermLowerWeights mintermW)
        (mintermUpperWeights mintermW) (mintermThresholds mintermW)
        (some inputVecW) (some attrVecW) 0 =
      if inputVecW = (mintermW 0).relation_signal ∧
          attrVecW = (mintermW 0).input_pattern then 1
      else -1 :=
  minterm_apical_fires_iff mintermW (by decide) (by decide) inputVecW
    attrVecW (by decide) (by decide) 0

/-- C2 counterexample: a freshly constructed layer of size 1 with no
neighbors and zero thresholds has weighted input exactly 0, and the apical
update maps it to 0 — not to +1, and not to a bipolar value. -/
theorem apical_zero_input_maps_to_zero :
    computeApicalState (fun _ _ => (0 : ℚ)) (fun _ _ => (0 : ℚ))
        (fun _ => (0 : ℚ)) (none : Option (Fin 1 → ℚ))
        (none : Option (Fin 1 → ℚ)) (0 : Fin 1) = 0 ∧
      computeApicalState (fun _ _ => (0 : ℚ)) (fun _ _ => (0 : ℚ))
        (fun _ => (0 : ℚ)) (none : Option (Fin 1 → ℚ))
        (none : Option (Fin 1 → ℚ)) (0 : Fin 1) ≠ 1 := by
  constructor
  · norm_num [computeApicalState, npSign]
  · norm_num [computeApicalState, npSign]

/-- C2 amended: in each step of the Hopfield relaxation an exactly-zero
weighted input is mapped to +1 and every output component is exactly +1 or
-1; the single-step apical update instead applies plain `np.sign`, which
maps an exactly-zero thresholded input to 0 (see the counterexample), so
only the relaxation steps are guaranteed bipolar. -/
theorem hopfield_step_zero_tiebreak {N : ℕ} (W : Fin N → Fin N → ℚ)
    (s : Fin N → ℚ) (i : Fin N) :
    ((∑ j, W i j * s j) = 0 → hopfieldStep W s i = 1) ∧
      (hopfieldStep W s i = 1 ∨ hopfieldStep W s i = -1) := by
  unfold hopfieldStep
  by_cases h : (∑ j, W i j * s j) = 0
  · exact ⟨fun _ => by rw [if_pos h], by rw [if_pos h]; left; rfl⟩
  · refine ⟨fun hc => absurd hc h, ?_⟩
    rw [if_neg h]
    rcases lt_trichotomy (∑ j, W i j * s j) 0 with hlt | heq | hgt
    · right
      exact npSign_neg hlt
    · exact absurd heq h
    · left
      exact npSign_pos hgt

lemma relaxLoop_spec {N : ℕ} (W : Fin N → Fin N → ℚ) :
    ∀ (fuel : ℕ) (s : Fin N → ℚ),
      (∃ k, k < fuel ∧
        relaxLoop W fuel s = ((hopfieldStep W)^[k + 1] s, true) ∧
        (hopfieldStep W)^[k + 1] s = (hopfieldStep W)^[k] s ∧
        ∀ j, j < k →
          (hopfieldStep W)^[j + 1] s ≠ (hopfieldStep W)^[j] s) ∨
      (relaxLoop W fuel s = ((hopfieldStep W)^[fuel] s, false) ∧
        ∀ j, j < fuel →
          (hopfieldStep W)^[j + 1] s ≠ (hopfieldStep W)^[j] s) := by
  intro fuel
  induction fuel with
  | zero =>
    intro s
    right
    exact ⟨by simp [relaxLoop], fun j hj => absurd hj (Nat.not_lt_zero j)⟩
  | succ fuel ih =>
    intro s
    by_cases h : hopfieldStep W s = s
    · left
      refine ⟨0, Nat.succ_pos fuel, ?_, ?_, fun j hj => absurd hj (Nat.not_lt_zero j)⟩
      · simp [relaxLoop, h]
      · simpa using h
    · have hrec : relaxLoop W (fuel + 1) s = relaxLoop W fuel (hopfieldStep W s) := by
        simp [relaxLoop, h]
      rcases ih (hopfieldStep W s) with ⟨k, hk, heq, hfix, hmin⟩ | ⟨heq, hmin⟩
      · left
        refine ⟨k + 1, by omega, ?_, ?_, ?_⟩
        · rw [hrec, heq]
          simp [Function.iterate_succ_apply]
        · simpa [Function.iterate_succ_apply] using hfix
        · intro j hj
          match j with
          | 0 => simpa using h
          | j + 1 =>
            have hj2 := hmin j (by omega)
            simpa [Function.iterate_succ_apply] using hj2
      · right
        constructor
        · rw [hrec, heq]
          simp [Function.iterate_succ_apply]
        · intro j hj
          match j with
          | 0 => simpa using h
          | j + 1 =>
            have hj2 := hmin j (by omega)
            simpa [Function.iterate_succ_apply] using hj2

/-- C4: from every starting state the relaxation performs at most 1000
synchronous iterations; it stops at the first iteration whose step leaves
the state unchanged and flags convergence, and when the cap is exhausted
without convergence it returns the state after exactly 1000 steps with the
non-fatal flag `false` instead of failing. -/
theorem hopfield_relaxation_terminates {N : ℕ} (W : Fin N → Fin N → ℚ)
    (s : Fin N → ℚ) :
    (∃ k, k < 1000 ∧
      computeHopfieldState W s = ((hopfieldStep W)^[k + 1] s, true) ∧
      hopfieldStep W ((computeHopfieldState W s).1) =
        (computeHopfieldState W s).1 ∧
      ∀ j, j < k →
        (hopfieldStep W)^[j + 1] s ≠ (hopfieldStep W)^[j] s) ∨
    (computeHopfieldState W s = ((hopfieldStep W)^[1000] s, false) ∧
      ∀ j, j < 1000 →
        (hopfieldStep W)^[j + 1] s ≠ (hopfieldStep W)^[j] s) := by
  have hspec := relaxLoop_spec W 1000 s
  have hcomp : computeHopfieldState W s = relaxLoop W 1000 s := rfl
  rcases hspec with ⟨k, hk, heq, hfix, hmin⟩ | ⟨heq, hmin⟩
  · left
    refine ⟨k, hk, hcomp.trans heq, ?_, hmin⟩
    have h1 : (computeHopfieldState W s).1 = (hopfieldStep W)^[k + 1] s := by
      rw [hcomp, heq]
    rw [h1, hfix]
    rw [← Function.iterate_succ_apply' (hopfieldStep W) k s]
    exact hfix
  · right
    exact ⟨hcomp.trans heq, hmin⟩

/-- C5: the synthesized attractor-layer threshold vector is the average of
the per-minterm offset vectors, and equals -(M-1)/M times the componentwise
sum of all target-state vectors. -/
theorem state_thresholds_closed_form {n N M : ℕ} (mts : Fin M → Minterm n N)
    (hM : 0 < M) (k : Fin N) :
    stateThresholds mts k = (∑ i, mintermOffset mts i k) / (M : ℚ) ∧
      stateThresholds mts k =
        -(((M : ℚ) - 1) / (M : ℚ)) * ∑ j, (mts j).output_state k := by
  refine ⟨rfl, ?_⟩
  have hMQ : (M : ℚ) ≠ 0 := Nat.cast_ne_zero.mpr hM.ne'
  unfold stateThresholds mintermOffset
  have h1 : ∀ i ∈ Finset.univ,
      (∑ j ∈ Finset.univ.erase i, -((mts j).output_state k)) =
        (mts i).output_state k - ∑ j, (mts j).output_state k := by
    intro i _
    rw [Finset.sum_neg_distrib, Finset.sum_erase_eq_sub (Finset.mem_univ i)]
    ring
  rw [Finset.sum_congr rfl h1, Finset.sum_sub_distrib, Finset.sum_const,
    Finset.card_univ, Fintype.card_fin, nsmul_eq_mul]
  field_simp
  ring

/-- C5 witness: the closed form evaluated on a concrete two-minterm
system. -/
theorem state_thresholds_closed_form_witness :
    stateThresholds mintermPairW 0 =
        (∑ i, mintermOffset mintermPairW i 0) / ((2 : ℕ) : ℚ) ∧
      stateThresholds mintermPairW 0 =
        -((((2 : ℕ) : ℚ) - 1) / ((2 : ℕ) : ℚ)) *
          ∑ j, (mintermPairW j).output_state 0 :=
  state_thresholds_closed_form mintermPairW (by decide) 0

lemma get_cons_fin_succ {α : Type} (a : α) (l : List α) (i : Fin l.length) :
    (a :: l).get i.succ = l.get i := rfl

lemma closestLoop_spec {N : ℕ} (target : Fin N → ℚ) :
    ∀ (l : List (String × (Fin N → ℚ))) (acc : String × ℚ),
      acc.2 ≤ (closestLoop target l acc).2 ∧
      (closestLoop target l acc).2 =
        (l.map fun p => similarity target p.2).foldl max acc.2 ∧
      ((closestLoop target l acc).2 = acc.2 → closestLoop target l acc = acc) ∧
      (acc.2 < (closestLoop target l acc).2 →
        ∃ i : Fin l.length,
          similarity target (l.get i).2 = (closestLoop target l acc).2 ∧
          (∀ m : Fin l.length, (m : ℕ) < (i : ℕ) →
            similarity target (l.get m).2 < (closestLoop target l acc).2) ∧
          (closestLoop target l acc).1 = (l.get i).1) := by
  intro l
  induction l with
  | nil =>
    intro acc
    exact ⟨le_refl _, by simp [closestLoop], fun _ => rfl,
      fun h => absurd h (lt_irrefl _)⟩
  | cons p rest ih =>
    intro acc
    by_cases hup : acc.2 < similarity target p.2
    · have hstep : closestLoop target (p :: rest) acc =
          closestLoop target rest (p.1, similarity target p.2) := by
        simp [closestLoop, hup]
      obtain ⟨ihle, ihfold, iheq, ihlt⟩ := ih (p.1, similarity target p.2)
      rw [hstep]
      refine ⟨le_of_lt (lt_of_lt_of_le hup ihle), ?_, ?_, ?_⟩
      · rw [ihfold, List.map_cons, List.foldl_cons,
          max_eq_right (le_of_lt hup)]
      · intro h2
        exfalso
        have h3 := lt_of_lt_of_le hup ihle
        rw [h2] at h3
        exact lt_irrefl _ h3
      · intro hlt2
        rcases eq_or_lt_of_le ihle with heq2 | hlt3
        · have hres : closestLoop target rest (p.1, similarity target p.2) =
              (p.1, similarity target p.2) := iheq heq2.symm
          refine ⟨⟨0, Nat.succ_pos _⟩, ?_, ?_, ?_⟩
          · rw [hres]
            rfl
          · intro m hm
            exact absurd hm (Nat.not_lt_zero _)
          · rw [hres]
            rfl
        · obtain ⟨i, hsim, hmax, hlbl⟩ := ihlt hlt3
          refine ⟨i.succ, ?_, ?_, ?_⟩
          · rw [get_cons_fin_succ]
            exact hsim
          · intro m hm
            rcases Fin.eq_zero_or_eq_succ m with hm0 | ⟨m2, hm2⟩
            · rw [hm0, List.get_cons_zero]
              exact hlt3
            · rw [hm2, get_cons_fin_succ]
              apply hmax
              rw [hm2] at hm
              simpa [Fin.val_succ] using hm
          · rw [get_cons_fin_succ]
            exact hlbl
    · have hstep : closestLoop target (p :: rest) acc =
          closestLoop target rest acc := by
        simp [closestLoop, hup]
      obtain ⟨ihle, ihfold, iheq, ihlt⟩ := ih acc
      rw [hstep]
      refine ⟨ihle, ?_, iheq, ?_⟩
      · rw [ihfold, List.map_cons, List.foldl_cons,
          max_eq_left (le_of_not_lt hup)]
      · intro hlt2
        obtain ⟨i, hsim, hmax, hlbl⟩ := ihlt hlt2
        refine ⟨i.succ, ?_, ?_, ?_⟩
        · rw [get_cons_fin_succ]
          exact hsim
        · intro m hm
          rcases Fin.eq_zero_or_eq_succ m with hm0 | ⟨m2, hm2⟩
          · rw [hm0, List.get_cons_zero]
            exact lt_of_le_of_lt (le_of_not_lt hup) hlt2
          · rw [hm2, get_cons_fin_succ]
            apply hmax
            rw [hm2] at hm
            simpa [Fin.val_succ] using hm
        · rw [get_cons_fin_succ]
          exact hlbl

/-- C6: on a non-empty store, recall returns the sentinel whenever the best
similarity dot(vector, pattern)/N is strictly below 0.75, and otherwise the
label of the first stored pattern attaining the maximum similarity (strictly
earlier patterns all have strictly smaller similarity). -/
theorem find_closest_state_spec {N : ℕ}
    (store : List (String × (Fin N → ℚ))) (target : Fin N → ℚ)
    (hne : store ≠ []) :
    (bestSimilarity target store < 3 / 4 →
      findClosestState store target (3 / 4) = some "Unknown pattern") ∧
    (3 / 4 ≤ bestSimilarity target store →
      ∃ i : Fin store.length,
        similarity target (store.get i).2 = bestSimilarity target store ∧
        (∀ m : Fin store.length, (m : ℕ) < (i : ℕ) →
          similarity target (store.get m).2 < bestSimilarity target store) ∧
        findClosestState store target (3 / 4) = some (store.get i).1) := by
  obtain ⟨hle, hfold, heq, hlt⟩ :=
    closestLoop_spec target store ("Unknown pattern", -1)
  have hbest : (closestLoop target store ("Unknown pattern", -1)).2 =
      bestSimilarity target store := hfold
  have hempty : store.isEmpty = false := by
    cases store with
    | nil => exact absurd rfl hne
    | cons q t => rfl
  have hform : findClosestState store target (3 / 4) =
      some
        (if 3 / 4 ≤ (closestLoop target store ("Unknown pattern", -1)).2
         then (closestLoop target store ("Unknown pattern", -1)).1
         else "Unknown pattern") := by
    unfold findClosestState
    rw [hempty]
    rfl
  constructor
  · intro hb
    have hcond : ¬(3 / 4 ≤ (closestLoop target store ("Unknown pattern", -1)).2) := by
      rw [hbest]
      exact not_le.mpr hb
    rw [hform, if_neg hcond]
  · intro hb
    have hcond : 3 / 4 ≤ (closestLoop target store ("Unknown pattern", -1)).2 := by
      rw [hbest]
      exact hb
    have hgt : ("Unknown pattern", (-1 : ℚ)).2 <
        (closestLoop target store ("Unknown pattern", -1)).2 := by
      rw [hbest]
      exact lt_of_lt_of_le (by norm_num) hb
    obtain ⟨i, hsim, hmax, hlbl⟩ := hlt hgt
    refine ⟨i, ?_, ?_, ?_⟩
    · rw [hsim]
      exact hbest
    · intro m hm
      rw [← hbest]
      exact hmax m hm
    · rw [hform, if_pos hcond, hlbl]

/-- C6 witness: a concrete store whose best similarity is 0, strictly below
the 0.75 threshold, yields the sentinel label. -/
theorem find_closest_state_spec_witness :
    findClosestState storeUnrecW targetUnrecW (3 / 4) =
      some "Unknown pattern" :=
  (find_closest_state_spec storeUnrecW targetUnrecW (by decide)).1
    (by norm_num [bestSimilarity, similarity, storeUnrecW, targetUnrecW,
      Fin.sum_univ_one])

lemma errorChainOk (b1 b2 b3 b4 b5 b6 : Bool) (e1 e2 e3 e4 e5 e6 : String) :
    (if b1 then Except.error e1
     else if b2 then Except.error e2
     else if b3 then Except.error e3
     else if b4 then Except.error e4
     else if b5 then Except.error e5
     else if b6 then Except.error e6
     else Except.ok ()) = Except.ok () ↔
      b1 = false ∧ b2 = false ∧ b3 = false ∧ b4 = false ∧ b5 = false ∧
        b6 = false := by
  cases b1 <;> cases b2 <;> cases b3 <;> cases b4 <;> cases b5 <;>
    cases b6 <;> simp

lemma shapeMismatch_eq_false_iff (n : ℕ) (link : Option ℕ) (m : NpMatrix) :
    shapeMismatch n link m = false ↔
      ∀ L, link = some L → m.rows = n ∧ m.cols = L := by
  cases link with
  | none => simp [shapeMismatch]
  | some L => simp [shapeMismatch]

/-- C7 amended: `_validate_weights` succeeds exactly when the lower matrix
matches [size × lowerNeighbor.size] whenever a lower neighbor is linked, the
upper matrix matches [size × upperNeighbor.size] whenever an upper neighbor
is linked, the thresholds have length size and all three arrays are
floating-point; with no lower neighbor linked the lower matrix is accepted
regardless of its shape or values (only its dtype is checked). -/
theorem validate_weights_ok_iff (selfN : ℕ) (lowerN upperN : Option ℕ)
    (lower upper : NpMatrix) (thresholds : NpVector) :
    validateWeights selfN lowerN upperN lower upper thresholds =
        Except.ok () ↔
      (∀ L, lowerN = some L → lower.rows = selfN ∧ lower.cols = L) ∧
        (∀ U, upperN = some U → upper.rows = selfN ∧ upper.cols = U) ∧
        thresholds.size = selfN ∧ lower.isFloat = true ∧
        upper.isFloat = true ∧ thresholds.isFloat = true := by
  unfold validateWeights
  rw [errorChainOk]
  rw [shapeMismatch_eq_false_iff, shapeMismatch_eq_false_iff]
  simp [bne_eq_false_iff_eq, Bool.not_eq_false']

/-- C7 counterexample: a layer of size 1 with no neighbors linked accepts a
nonzero 2×3 float lower matrix — `set_weights` does not reject a nonzero
lower matrix when no lower neighbor is linked. -/
theorem validate_weights_accepts_unlinked_nonzero_lower :
    validateWeights 1 none none cexLower cexUpper cexThr = Except.ok () ∧
      cexLower.rows = 2 ∧ ∃ i j, cexLower.entries i j ≠ 0 := by
  refine ⟨rfl, rfl, ⟨0, by norm_num [cexLower]⟩, ⟨0, by norm_num [cexLower]⟩,
    ?_⟩
  exact (by norm_num : (7 : ℚ) ≠ 0)

lemma map_mul_comm_sum {N : ℕ} (ps : List (Fin N → ℚ)) (i j : Fin N) :
    (ps.map fun p => p i * p j).sum = (ps.map fun p => p j * p i).sum := by
  induction ps with
  | nil => rfl
  | cons q t ih =>
    rw [List.map_cons, List.map_cons, List.sum_cons, List.sum_cons, ih,
      mul_comm (q i) (q j)]

lemma hebbWeights_symm {N : ℕ} (ps : List (Fin N → ℚ)) (i j : Fin N) :
    hebbWeights ps i j = hebbWeights ps j i := by
  unfold hebbWeights hebbRaw
  by_cases h : i = j
  · rw [if_pos h, if_pos h.symm]
  · rw [if_neg h, if_neg (Ne.symm h), map_mul_comm_sum]

/-- C8: after any store mutation (add or remove) that completes without an
error, the recomputed Hebbian matrix is symmetric, has zero diagonal, and
off the diagonal equals the average over the stored patterns of the outer
product of each pattern with itself. -/
theorem hebbian_invariants_after_mutation {N : ℕ} (store : Store N)
    (weights : Fin N → Fin N → ℚ) (m : StoreMutation N)
    (h : (applyMutation store weights m).2.2 = true) :
    (∀ i j, (applyMutation store weights m).2.1 i j =
      (applyMutation store weights m).2.1 j i) ∧
    (∀ i, (applyMutation store weights m).2.1 i i = 0) ∧
    (∀ i j, (applyMutation store weights m).2.1 i j =
      if i = j then 0
      else (((applyMutation store weights m).1.map Prod.snd).map
          (fun p => p i * p j)).sum /
        ((((applyMutation store weights m).1.map Prod.snd).length : ℚ))) := by
  have hW : (applyMutation store weights m).2.1 =
      hebbWeights ((applyMutation store weights m).1.map Prod.snd) := by
    cases m with
    | add lbl v =>
      show (computeHopfieldWeightsSt
          ((storeSet store lbl v).map Prod.snd)).1 =
        hebbWeights ((storeSet store lbl v).map Prod.snd)
      have hflag : (computeHopfieldWeightsSt
          ((storeSet store lbl v).map Prod.snd)).2 = true := h
      unfold computeHopfieldWeightsSt at hflag ⊢
      by_cases he : ((storeSet store lbl v).map Prod.snd).isEmpty
      · rw [if_pos he] at hflag
        simp at hflag
      · rw [if_neg he]
    | remove lbl =>
      show (removeStateSt store weights lbl).2.1 =
        hebbWeights ((removeStateSt store weights lbl).1.map Prod.snd)
      have h2 : (removeStateSt store weights lbl).2.2 = true := h
      unfold removeStateSt at h2 ⊢
      by_cases hany : store.any fun p => p.1 == lbl
      · rw [if_pos hany] at h2 ⊢
        have hflag : (computeHopfieldWeightsSt
            ((store.filter fun p => p.1 != lbl).map Prod.snd)).2 = true := h2
        unfold computeHopfieldWeightsSt at hflag ⊢
        by_cases he : ((store.filter fun p => p.1 != lbl).map
            Prod.snd).isEmpty
        · rw [if_pos he] at hflag
          simp at hflag
        · rw [if_neg he]
      · rw [if_neg hany] at h2
        simp at h2
  rw [hW]
  refine ⟨fun i j => hebbWeights_symm _ i j, fun i => ?_, fun i j => rfl⟩
  unfold hebbWeights
  rw [if_pos rfl]

/-- C8 witness: the Hebbian invariants applied to a concrete add mutation,
evaluated on the diagonal. -/
theorem hebbian_invariants_witness :
    (applyMutation ([] : Store 1) (fun _ _ => 0)
      (StoreMutation.add "A" vecOneW)).2.1 0 0 = 0 :=
  (hebbian_invariants_after_mutation [] (fun _ _ => 0)
    (StoreMutation.add "A" vecOneW) (by decide)).2.1 0

/-- C9: recomputing the Hebbian weights on an empty store zeroes the weight
matrix before the error is raised, and removing the only stored pattern
raises while still leaving the store emptied and the weights zeroed — the
failing operation is not atomic. -/
theorem remove_last_state_not_atomic {N : ℕ} (W0 : Fin N → Fin N → ℚ)
    (lbl : String) (v : Fin N → ℚ) :
    computeHopfieldWeightsSt ([] : List (Fin N → ℚ)) =
        (fun _ _ => (0 : ℚ), false) ∧
      removeStateSt [(lbl, v)] W0 lbl = ([], fun _ _ => (0 : ℚ), false) := by
  constructor
  · rfl
  · unfold removeStateSt
    have hany : ([(lbl, v)].any fun p => p.1 == lbl) = true := by
      simp
    rw [if_pos hany]
    have hfilt : ([(lbl, v)].filter fun p => p.1 != lbl) = [] := by
      simp
    rw [hfilt]
    rfl

lemma storeSet_map_fst {N : ℕ} (store : Store N) (lbl : String)
    (v : Fin N → ℚ) (h : (store.any fun p => p.1 == lbl) = true) :
    (storeSet store lbl v).map Prod.fst = store.map Prod.fst := by
  unfold storeSet
  rw [if_pos h, List.map_map]
  apply List.map_congr_left
  intro p _
  simp only [Function.comp_apply]
  by_cases hp : p.1 == lbl
  · rw [if_pos hp]
    exact (eq_of_beq hp).symm
  · rw [if_neg hp]

lemma storeSet_lookup {N : ℕ} (store : Store N) (lbl : String)
    (v : Fin N → ℚ) (h : (store.any fun p => p.1 == lbl) = true) :
    List.lookup lbl
      (store.map fun p => if p.1 == lbl then (lbl, v) else p) = some v := by
  induction store with
  | nil => simp at h
  | cons p rest ih =>
    rw [List.map_cons]
    by_cases hp : p.1 == lbl
    · rw [if_pos hp]
      simp [List.lookup]
    · rw [if_neg hp]
      have hrest : (rest.any fun q => q.1 == lbl) = true := by
        rw [List.any_cons] at h
        simpa [hp] using h
      have hne : (lbl == p.1) = false := by
        rw [beq_eq_false_iff_ne]
        intro he
        rw [← he] at hp
        exact hp (beq_self_eq_true lbl)
      simp only [List.lookup, hne]
      exact ih hrest

lemma storeSet_nonempty {N : ℕ} (store : Store N) (lbl : String)
    (v : Fin N → ℚ) (h : (store.any fun p => p.1 == lbl) = true) :
    ((storeSet store lbl v).map Prod.snd).isEmpty = false := by
  unfold storeSet
  rw [if_pos h]
  cases store with
  | nil => simp at h
  | cons p rest => rfl

/-- C10: adding a state under an already-present label does not fail: the
stored vector under that label is replaced in place, the label list (hence
the store's size and the absence of duplicate labels) is unchanged, and the
weights are recomputed from the new store. -/
theorem add_existing_label_replaces {N : ℕ} (store : Store N) (lbl : String)
    (v : Fin N → ℚ) (hmem : (store.any fun p => p.1 == lbl) = true)
    (hnodup : (store.map Prod.fst).Nodup) :
    (addSingleStateSt store lbl v).1.map Prod.fst = store.map Prod.fst ∧
      (addSingleStateSt store lbl v).1.length = store.length ∧
      List.lookup lbl (addSingleStateSt store lbl v).1 = some v ∧
      ((addSingleStateSt store lbl v).1.map Prod.fst).Nodup ∧
      (addSingleStateSt store lbl v).2.2 = true ∧
      (addSingleStateSt store lbl v).2.1 =
        hebbWeights ((addSingleStateSt store lbl v).1.map Prod.snd) := by
  have h1 : (addSingleStateSt store lbl v).1 = storeSet store lbl v := rfl
  have hfst : (storeSet store lbl v).map Prod.fst = store.map Prod.fst :=
    storeSet_map_fst store lbl v hmem
  have hempty := storeSet_nonempty store lbl v hmem
  refine ⟨by rw [h1, hfst], ?_, ?_, ?_, ?_, ?_⟩
  · rw [h1]
    have h2 := congrArg List.length hfst
    simpa [List.length_map] using h2
  · rw [h1]
    unfold storeSet
    rw [if_pos hmem]
    exact storeSet_lookup store lbl v hmem
  · rw [h1, hfst]
    exact hnodup
  · show (computeHopfieldWeightsSt
        ((storeSet store lbl v).map Prod.snd)).2 = true
    unfold computeHopfieldWeightsSt
    rw [if_neg (by simp [hempty])]
  · show (computeHopfieldWeightsSt
        ((storeSet store lbl v).map Prod.snd)).1 =
      hebbWeights ((storeSet store lbl v).map Prod.snd)
    unfold computeHopfieldWeightsSt
    rw [if_neg (by simp [hempty])]

/-- C10 witness: replacing the vector stored under an existing label on a
concrete two-pattern store. -/
theorem add_existing_label_replaces_witness :
    List.lookup "A" (addSingleStateSt storeTwoW "A" vecFiveW).1 =
      some vecFiveW :=
  (add_existing_label_replaces storeTwoW "A" vecFiveW (by decide)
    (by decide)).2.2.1

/-- C3: a step whose relation label is not among the configured categories
is rejected before any layer is touched: the call reports the error state
and every layer's current state vector is unchanged. -/
theorem process_input_unknown_relation {n M N : ℕ} (net : SeqNet n M N)
    (userInput : String) (h : net.inputs.lookup userInput = none) :
    processInput net userInput = ("error_state", net) := by
  unfold processInput
  rw [h]

/-- C3 witness: stepping a concrete network with an unconfigured relation
label leaves it unchanged and reports the error state. -/
theorem process_input_unknown_relation_witness :
    processInput netW "B" = ("error_state", netW) :=
  process_input_unknown_relation netW "B" (by decide)

end HopSeq
